import Mathlib

/-
Verification of the chessboard-sense position-reconciliation core.

The development shallowly embeds the final revision of the repository's
`PiecesPlacement` class (src/PiecesPlacement.ts: FEN parsing/serialization,
point updates, bounded diff) and the chess.js-backed `ChessPosition`
reconciliation state machine (the `next` transition with its
lifted / errors / pending-move / fresh-move branches).

Conventions of the embedding:
- JavaScript `Piece | null` becomes `Option Piece`; a thrown exception
  becomes an `Option`-valued result (`none` = throw).
- A JS array of optional pieces becomes `List (Option Piece)`; writing past
  the end of the array extends it with holes, which read back as `null`,
  so holes are modeled as `none` entries.
- The external rules engine (chess.js) is out of the repository; it is
  modeled from the spec's collaborator contract as a snapshot tree plus an
  undo stack (see `Snap` and `Engine` below).
-/

/-- Side to move / piece color, `'w'` or `'b'` in the source. -/
inductive SideColor where
  | w
  | b
deriving DecidableEq

/-- The six piece kinds, lowercase symbols in the source. -/
inductive PieceKind where
  | p
  | n
  | b
  | r
  | q
  | k
deriving DecidableEq

/-- A chess piece: one canonical value per (color, kind) pair, as the source's
`Piece` class keeps one instance per FEN symbol. -/
structure Piece where
  side : SideColor
  kind : PieceKind
deriving DecidableEq

/-- Source `Piece.color()` (the revision used by `ChessPosition` calls it
`color`, the other revision `side`). -/
def Piece.color (pc : Piece) : SideColor :=
  pc.side

def Piece.WP : Piece := ⟨SideColor.w, PieceKind.p⟩
def Piece.WN : Piece := ⟨SideColor.w, PieceKind.n⟩
def Piece.WB : Piece := ⟨SideColor.w, PieceKind.b⟩
def Piece.WR : Piece := ⟨SideColor.w, PieceKind.r⟩
def Piece.WQ : Piece := ⟨SideColor.w, PieceKind.q⟩
def Piece.WK : Piece := ⟨SideColor.w, PieceKind.k⟩
def Piece.BP : Piece := ⟨SideColor.b, PieceKind.p⟩
def Piece.BN : Piece := ⟨SideColor.b, PieceKind.n⟩
def Piece.BB : Piece := ⟨SideColor.b, PieceKind.b⟩
def Piece.BR : Piece := ⟨SideColor.b, PieceKind.r⟩
def Piece.BQ : Piece := ⟨SideColor.b, PieceKind.q⟩
def Piece.BK : Piece := ⟨SideColor.b, PieceKind.k⟩

/-- FEN symbol of a piece (uppercase white, lowercase black). -/
def Piece.symbol : Piece → Char
  | ⟨SideColor.w, PieceKind.p⟩ => 'P'
  | ⟨SideColor.w, PieceKind.n⟩ => 'N'
  | ⟨SideColor.w, PieceKind.b⟩ => 'B'
  | ⟨SideColor.w, PieceKind.r⟩ => 'R'
  | ⟨SideColor.w, PieceKind.q⟩ => 'Q'
  | ⟨SideColor.w, PieceKind.k⟩ => 'K'
  | ⟨SideColor.b, PieceKind.p⟩ => 'p'
  | ⟨SideColor.b, PieceKind.n⟩ => 'n'
  | ⟨SideColor.b, PieceKind.b⟩ => 'b'
  | ⟨SideColor.b, PieceKind.r⟩ => 'r'
  | ⟨SideColor.b, PieceKind.q⟩ => 'q'
  | ⟨SideColor.b, PieceKind.k⟩ => 'k'

/-- Source `Piece.tryParse`: the `BY_SYMBOL` lookup, `null` for unknown. -/
def Piece.tryParse (c : Char) : Option Piece :=
  if c = 'P' then some Piece.WP
  else if c = 'N' then some Piece.WN
  else if c = 'B' then some Piece.WB
  else if c = 'R' then some Piece.WR
  else if c = 'Q' then some Piece.WQ
  else if c = 'K' then some Piece.WK
  else if c = 'p' then some Piece.BP
  else if c = 'n' then some Piece.BN
  else if c = 'b' then some Piece.BB
  else if c = 'r' then some Piece.BR
  else if c = 'q' then some Piece.BQ
  else if c = 'k' then some Piece.BK
  else none

/-- A board square, identified by its linear index as in the source's
`Square` class (0 = a8, 63 = h1); the class validates 0..63 on construction. -/
abbrev Square := Nat

/-- Source `Target`: a square together with its (possibly absent) occupant. -/
structure Target where
  piece : Option Piece
  square : Square
deriving DecidableEq

/-- Source `TargetChange`: one element of a placement diff. -/
structure TargetChange where
  square : Square
  before : Option Piece
  after : Option Piece
deriving DecidableEq

/-- JS `\s`-style whitespace test used by `trim` / `split(`regex ws`)`. -/
def isWSChar (c : Char) : Bool :=
  c = ' ' || c = '\t' || c = '\n' || c = '\r'

/-- Chars of `text.trim()`. -/
def trimChars (l : List Char) : List Char :=
  ((l.dropWhile isWSChar).reverse.dropWhile isWSChar).reverse

/-- First whitespace-separated token of a trimmed string: the source's
`fen.trim().split(ws)[0]`, the piece-placement field. -/
def fenFieldChars (l : List Char) : List Char :=
  (trimChars l).takeWhile (fun c => !(isWSChar c))

/-- Split a char list at every occurrence of `sep`, as JS `split(sep)`;
the result is always nonempty. -/
def splitChar (sep : Char) : List Char → List (List Char)
  | [] => [[]]
  | c :: rest =>
    match splitChar sep rest with
    | [] => if c = sep then [[], []] else [[c]]
    | s :: ss => if c = sep then [] :: s :: ss else (c :: s) :: ss

/-- Numeric value of a digit character, the source's `Number.parseInt(char, 10)`
restricted to the single-character case. -/
def digitVal (c : Char) : Nat :=
  c.toNat - '0'.toNat

/-- Decimal representation of a number as chars (`emptyCount.toString()`). -/
def natDigits (n : Nat) : List Char :=
  (Nat.repr n).data

/-- The char scan of `PiecesPlacement.fromFen`: digits `1`..`8` skip that many
squares (the prefilled array keeps `null` there, modeled by appending `none`
entries), piece symbols append one occupied square, anything else throws. -/
def parseCells : List Char → Option (List (Option Piece))
  | [] => some []
  | c :: rest =>
    if '1' ≤ c ∧ c ≤ '8' then
      (parseCells rest).map (fun cells => List.replicate (digitVal c) none ++ cells)
    else
      match Piece.tryParse c with
      | none => none
      | some pc => (parseCells rest).map (fun cells => some pc :: cells)

/-- Immutable 64-slot board snapshot; the source stores a readonly JS array of
`Piece | null`. The 64-length invariant is a claim about the operations, not
part of the type. -/
structure PiecesPlacement where
  pieces : List (Option Piece)
deriving DecidableEq

/-- Source `PiecesPlacement.empty()`. -/
def PiecesPlacement.empty : PiecesPlacement :=
  ⟨List.replicate 64 none⟩

/-- Source `PiecesPlacement.starting()`: the `STARTING_PIECES` array. -/
def PiecesPlacement.starting : PiecesPlacement :=
  ⟨[some Piece.BR, some Piece.BN, some Piece.BB, some Piece.BQ,
    some Piece.BK, some Piece.BB, some Piece.BN, some Piece.BR,
    some Piece.BP, some Piece.BP, some Piece.BP, some Piece.BP,
    some Piece.BP, some Piece.BP, some Piece.BP, some Piece.BP,
    none, none, none, none, none, none, none, none,
    none, none, none, none, none, none, none, none,
    none, none, none, none, none, none, none, none,
    none, none, none, none, none, none, none, none,
    some Piece.WP, some Piece.WP, some Piece.WP, some Piece.WP,
    some Piece.WP, some Piece.WP, some Piece.WP, some Piece.WP,
    some Piece.WR, some Piece.WN, some Piece.WB, some Piece.WQ,
    some Piece.WK, some Piece.WB, some Piece.WN, some Piece.WR]⟩

/-- Source `PiecesPlacement.fromFen`: take the first whitespace token of the
trimmed text, split it into `/`-separated ranks, require exactly 8 ranks, scan
the rank chars sequentially (the source's `squareIndex` walks across rank
boundaries, so the scan is over the concatenation), require exactly 64 squares.
`none` models the thrown `Invalid FEN` errors. -/
def PiecesPlacement.fromFen (fen : String) : Option PiecesPlacement :=
  if (splitChar '/' (fenFieldChars fen.data)).length = 8 then
    match parseCells (splitChar '/' (fenFieldChars fen.data)).flatten with
    | none => none
    | some cells => if cells.length = 64 then some ⟨cells⟩ else none
  else none

/-- Source `pieceAtIndex`: `this.pieces[index] ?? null`. -/
def PiecesPlacement.pieceAtIndex (p : PiecesPlacement) (index : Nat) : Option Piece :=
  p.pieces.getD index none

/-- Source `pieceAt(square)`. -/
def PiecesPlacement.pieceAt (p : PiecesPlacement) (square : Square) : Option Piece :=
  p.pieceAtIndex square

/-- JS array element assignment `arr[i] = v` on a copy: in range it replaces
the slot, past the end it extends the array with holes (read back as `null`). -/
def setJS (l : List (Option Piece)) (i : Nat) (v : Option Piece) : List (Option Piece) :=
  if i < l.length then l.set i v
  else l ++ List.replicate (i - l.length) none ++ [v]

/-- Source `withPieceAtIndex`: copy the array, assign one slot. -/
def PiecesPlacement.withPieceAtIndex (p : PiecesPlacement) (index : Nat)
    (piece : Option Piece) : PiecesPlacement :=
  ⟨setJS p.pieces index piece⟩

/-- Source `withPieceAt(square, piece)`. -/
def PiecesPlacement.withPieceAt (p : PiecesPlacement) (square : Square)
    (piece : Option Piece) : PiecesPlacement :=
  p.withPieceAtIndex square piece

/-- Source `fillRank`: requires exactly 8 pieces (else throws, modeled as
`none`), then assigns slots `rankIndex*8 .. rankIndex*8+7` on a copy. -/
def PiecesPlacement.fillRank (p : PiecesPlacement) (rankIndex : Nat)
    (pieces : List (Option Piece)) : Option PiecesPlacement :=
  if pieces.length = 8 then
    some ⟨(List.range 8).foldl
      (fun acc i => setJS acc (rankIndex * 8 + i) (pieces.getD i none)) p.pieces⟩
  else none

/-- Run-length encoding of one rank's cells, with the pending empty-run count
carried as the source's `emptyCount` accumulator. Within an 8-cell rank the
count stays in 1..8, whose decimal form is a single digit char. -/
def rankFen : List (Option Piece) → Nat → List Char
  | [], cnt => if cnt = 0 then [] else natDigits cnt
  | none :: rest, cnt => rankFen rest (cnt + 1)
  | some pc :: rest, cnt =>
    (if cnt = 0 then [] else natDigits cnt) ++ pc.symbol :: rankFen rest 0

/-- Split a cell list into ranks of 8: the source's `toFen` loop flushes its
run and emits a `/` at every index congruent to 7 mod 8. -/
def ranksSplit : List (Option Piece) → List (List (Option Piece))
  | c0 :: c1 :: c2 :: c3 :: c4 :: c5 :: c6 :: c7 :: rest =>
    [c0, c1, c2, c3, c4, c5, c6, c7] :: ranksSplit rest
  | [] => []
  | rest => [rest]

/-- Join rank strings with `/` separators, JS `ranks.join(sep)`. -/
def intercalateChar (sep : Char) : List (List Char) → List Char
  | [] => []
  | [r] => r
  | r :: rest => r ++ sep :: intercalateChar sep rest

/-- Chars of `PiecesPlacement.toFen`: the source loop reads indices 0..63 only
(hence `take 64`), run-length encodes each 8-cell rank and joins with `/`. -/
def PiecesPlacement.toFenChars (p : PiecesPlacement) : List Char :=
  intercalateChar '/' ((ranksSplit (p.pieces.take 64)).map (fun r => rankFen r 0))

/-- Source `PiecesPlacement.toFen`. -/
def PiecesPlacement.toFen (p : PiecesPlacement) : String :=
  String.mk p.toFenChars

/-- One iteration body of the source `diff` loop at index `i`: compare the two
occupants (canonical piece instances make the JS `!==` a structural test) and
report a `TargetChange` built with `Square.fromIndex(i)` when they differ. -/
def diffStep (a b : PiecesPlacement) (i : Nat) : Option TargetChange :=
  let before := a.pieces.getD i none
  let after := b.pieces.getD i none
  if before = after then none else some ⟨i, before, after⟩

/-- The source `diff` loop: `for (i = 0; i < 64 && diff.length < limit; i++)`.
`fuel` counts the indices left below 64, `limit` the changes still allowed. -/
def diffLoop (a b : PiecesPlacement) : Nat → Nat → Nat → List TargetChange
  | _, _, 0 => []
  | i, limit, fuel + 1 =>
    if limit = 0 then []
    else
      match diffStep a b i with
      | none => diffLoop a b (i + 1) limit fuel
      | some c => c :: diffLoop a b (i + 1) (limit - 1) fuel

/-- Source `diff(other, limit = 64)` (the default limit is passed explicitly
by callers in this embedding). -/
def PiecesPlacement.diff (a b : PiecesPlacement) (limit : Nat) : List TargetChange :=
  diffLoop a b 0 limit 64

/-- Source `equals(other)`: `this.diff(other, 1).length === 0`. -/
def PiecesPlacement.equals (a b : PiecesPlacement) : Bool :=
  (a.diff b 1).length == 0

/-- Declarative restatement of the spec's description of `diff`: one
`TargetChange` for every index in 0..63, in increasing order, where the
occupants differ. Used to compare the scanning loop against the spec. -/
def diffSpec (a b : PiecesPlacement) : List TargetChange :=
  (List.range 64).filterMap (diffStep a b)

/-- First segment of a FEN string before a literal space: the source's
`fen.split(' ')[0]` applied to engine output. -/
def fenField0 (s : String) : String :=
  String.mk (s.data.takeWhile (fun c => c ≠ ' '))

/-- Modelled from the spec: the external rules-engine collaborator (chess.js)
is out of this repository. A `Snap` is one engine position: its full FEN, its
side to move, and its verbose legal-move list. The engine applies a move by
jumping to that move's snapshot, so a verbose move (whose `after` field is the
FEN of the resulting position) is identified with the resulting snapshot;
`Snap.fen` of a move is the move's `after` FEN. -/
inductive Snap where
  | mk (fen : String) (turn : SideColor) (moves : List Snap)

/-- Full FEN of an engine snapshot (`chess.fen()`, and `move.after`). -/
def Snap.fen : Snap → String
  | .mk f _ _ => f

/-- Side to move at a snapshot (`chess.turn()`). -/
def Snap.turn : Snap → SideColor
  | .mk _ t _ => t

/-- Verbose legal moves from a snapshot (`chess.moves({verbose: true})`). -/
def Snap.moves : Snap → List Snap
  | .mk _ _ ms => ms

/-- Modelled from the spec: the mutable rules-engine handle, a current
position plus the history stack that `undo` pops. -/
structure Engine where
  current : Snap
  history : List Snap

/-- Engine `move`: jump to the move's snapshot, push the old position. -/
def Engine.move (e : Engine) (m : Snap) : Engine :=
  ⟨m, e.current :: e.history⟩

/-- Engine `undo`: pop back to the previous position; with no history
chess.js's `undo()` is a no-op. -/
def Engine.undo (e : Engine) : Engine :=
  match e.history with
  | [] => e
  | h :: t => ⟨h, t⟩

/-- Source `LiftedPiece` / `Errors` union (`Alteration`). -/
inductive Alteration where
  | lifted (piece : Piece) (square : Square)
  | errors (targets : List Target)
deriving DecidableEq

/-- Source `TurnSide`: side to move plus its legal moves. -/
structure TurnSide where
  color : SideColor
  legalMoves : List Snap

/-- Source `PendingSide`: captured when a move is provisionally applied. -/
structure PendingSide where
  color : SideColor
  returnPlacement : PiecesPlacement
  legalMoves : List Snap

/-- Source `ChessPosition` fields. `turnSide` is optional: one revision types
it nullable and both carry the null check in `next`. -/
structure ChessPosition where
  engine : Engine
  placement : PiecesPlacement
  alteration : Option Alteration
  turnSide : Option TurnSide
  pendingSide : Option PendingSide
  returned : Bool

/-- The source `ChessPosition` constructor: derives `placement` by parsing
the piece-placement field of the engine's current FEN; the parse can throw,
modeled as `none`. -/
def mkChessPosition (engine : Engine) (alteration : Option Alteration)
    (turnSide : Option TurnSide) (pendingSide : Option PendingSide)
    (returned : Bool) : Option ChessPosition :=
  (PiecesPlacement.fromFen (fenField0 engine.current.fen)).map
    (fun pl => ⟨engine, pl, alteration, turnSide, pendingSide, returned⟩)

/-- Source `withAlteration`: same engine, turn side and pending side, new
alteration; `returned` reverts to its default `false`. -/
def ChessPosition.withAlteration (p : ChessPosition) (a : Option Alteration) :
    Option ChessPosition :=
  mkChessPosition p.engine a p.turnSide p.pendingSide false

/-- Source private `liftedPiece(change)`: the change must remove a piece,
replace it with nothing, and the removed piece's color must match
`chess.turn()`. -/
def ChessPosition.liftedPiece (p : ChessPosition) (change : TargetChange) :
    Option Piece :=
  match change.before with
  | none => none
  | some pc =>
    match change.after with
    | some _ => none
    | none => if pc.color = p.engine.current.turn then some pc else none

/-- The move-matching test of `next`: the piece-placement field of the move's
`after` FEN compared with the observed placement's FEN string. -/
def movePred (placement : PiecesPlacement) (m : Snap) : Bool :=
  fenField0 m.fen == placement.toFen

/-- Targets reported by the error branches of `next`: one per changed square,
carrying the pre-change occupant (`change.from`). -/
def errorTargets (d : List TargetChange) : List Target :=
  d.map (fun change => ⟨change.before, change.square⟩)

/-- The tail of `next` after the pending-side checks: the turn-side null
guard, the fresh legal-move scan, and the final error registration. -/
def ChessPosition.nextTurn (p : ChessPosition) (placement : PiecesPlacement)
    (d : List TargetChange) : Option ChessPosition :=
  match p.turnSide with
  | none => p.withAlteration (some (Alteration.errors (errorTargets d)))
  | some ts =>
    match List.find? (movePred placement) ts.legalMoves with
    | some m =>
      mkChessPosition (p.engine.move m) none
        (some ⟨m.turn, m.moves⟩)
        (some ⟨ts.color, p.placement, ts.legalMoves⟩) false
    | none => p.withAlteration (some (Alteration.errors (errorTargets d)))

/-- The multi-change part of `next` (diff length at least 2): pending-move
cancellation, pending-move alternative completion, then `nextTurn`. -/
def ChessPosition.nextMulti (p : ChessPosition) (placement : PiecesPlacement)
    (d : List TargetChange) : Option ChessPosition :=
  match p.pendingSide with
  | some ps =>
    if placement.equals ps.returnPlacement then
      let eng := p.engine.undo
      mkChessPosition eng none (some ⟨ps.color, eng.current.moves⟩) none true
    else
      match List.find? (movePred placement) ps.legalMoves with
      | some m =>
        let eng := (p.engine.undo).move m
        mkChessPosition eng none (some ⟨m.turn, m.moves⟩) (some ps) false
      | none => p.nextTurn placement d
  | none => p.nextTurn placement d

/-- Source `ChessPosition.next`, the single transition function: diff the
current placement against the observed one, then branch on the diff size
exactly as the source does. -/
def ChessPosition.next (p : ChessPosition) (placement : PiecesPlacement) :
    Option ChessPosition :=
  match p.placement.diff placement 64 with
  | [] => if p.alteration.isSome then p.withAlteration none else some p
  | [change] =>
    match p.liftedPiece change with
    | none =>
      p.withAlteration (some (Alteration.errors [⟨change.before, change.square⟩]))
    | some pc => p.withAlteration (some (Alteration.lifted pc change.square))
  | c1 :: c2 :: rest => p.nextMulti placement (c1 :: c2 :: rest)

/-- Modelled from the spec: the `PositionStatus` tagged variant
(`Ready | Lifted | Errors | Moved`) is exported by a `ChessPosition.js`
revision that is not under src/; the revision under src/ exposes the
`alteration` field and the pending-side bookkeeping the statuses are read
from. -/
inductive PositionStatus where
  | Ready
  | Lifted (piece : Piece) (square : Square)
  | Errors (targets : List Target)
  | Moved
deriving DecidableEq

/-- Modelled from the spec: the status of a position. A lifted or errors
alteration reports itself; otherwise a position with pending-side bookkeeping
is one whose move was just (provisionally) applied, `Moved`, and a position
with no pending move is settled, `Ready`. -/
def ChessPosition.status (p : ChessPosition) : PositionStatus :=
  match p.alteration with
  | some (Alteration.lifted pc sq) => PositionStatus.Lifted pc sq
  | some (Alteration.errors ts) => PositionStatus.Errors ts
  | none => if p.pendingSide.isSome then PositionStatus.Moved else PositionStatus.Ready

/-- A snapshot whose FEN's piece-placement field parses: what the external
engine guarantees for every FEN it emits. -/
def snapWF (s : Snap) : Bool :=
  (PiecesPlacement.fromFen (fenField0 s.fen)).isSome

/-- Engine data reachable by one `next` call is well-formed: the current
snapshot, the undo stack, and the stored legal-move lists. -/
def posWF (p : ChessPosition) : Bool :=
  snapWF p.engine.current &&
  p.engine.history.all snapWF &&
  (p.turnSide.all fun ts => ts.legalMoves.all snapWF) &&
  (p.pendingSide.all fun ps => ps.legalMoves.all snapWF)

/-- The observed diff admits no explanation: it is nonempty, a single change
is not a valid lift, and a multi-square change matches neither the pending
return placement, nor a pending alternative move, nor a fresh legal move. -/
def noExplanation (p : ChessPosition) (placement : PiecesPlacement) : Bool :=
  match p.placement.diff placement 64 with
  | [] => false
  | [change] => (p.liftedPiece change).isNone
  | _ :: _ :: _ =>
    (match p.pendingSide with
     | some ps =>
       !(placement.equals ps.returnPlacement) &&
         (List.find? (movePred placement) ps.legalMoves).isNone
     | none => true) &&
    (match p.turnSide with
     | some ts => (List.find? (movePred placement) ts.legalMoves).isNone
     | none => true)

/-- Modelled from the spec: build a verbose first move of white as the rules
engine reports it — the placement field of its `after` FEN plus black to move.
The nested move lists are not consulted by the scenarios and stay empty. -/
def whiteReply (pl : String) : Snap :=
  Snap.mk (pl ++ " b KQkq - 0 1") SideColor.b []

/-- Modelled from the spec: the twenty legal moves from the standard starting
position in the rules engine's enumeration order (a3, a4, ..., h4, Na3, Nc3,
Nf3, Nh3), each carrying the placement resulting from it. -/
def startMoves : List Snap :=
  [whiteReply "rnbqkbnr/pppppppp/8/8/8/P7/1PPPPPPP/RNBQKBNR",
   whiteReply "rnbqkbnr/pppppppp/8/8/P7/8/1PPPPPPP/RNBQKBNR",
   whiteReply "rnbqkbnr/pppppppp/8/8/8/1P6/P1PPPPPP/RNBQKBNR",
   whiteReply "rnbqkbnr/pppppppp/8/8/1P6/8/P1PPPPPP/RNBQKBNR",
   whiteReply "rnbqkbnr/pppppppp/8/8/8/2P5/PP1PPPPP/RNBQKBNR",
   whiteReply "rnbqkbnr/pppppppp/8/8/2P5/8/PP1PPPPP/RNBQKBNR",
   whiteReply "rnbqkbnr/pppppppp/8/8/8/3P4/PPP1PPPP/RNBQKBNR",
   whiteReply "rnbqkbnr/pppppppp/8/8/3P4/8/PPP1PPPP/RNBQKBNR",
   whiteReply "rnbqkbnr/pppppppp/8/8/8/4P3/PPPP1PPP/RNBQKBNR",
   whiteReply "rnbqkbnr/pppppppp/8/8/4P3/8/PPPP1PPP/RNBQKBNR",
   whiteReply "rnbqkbnr/pppppppp/8/8/8/5P2/PPPPP1PP/RNBQKBNR",
   whiteReply "rnbqkbnr/pppppppp/8/8/5P2/8/PPPPP1PP/RNBQKBNR",
   whiteReply "rnbqkbnr/pppppppp/8/8/8/6P1/PPPPPP1P/RNBQKBNR",
   whiteReply "rnbqkbnr/pppppppp/8/8/6P1/8/PPPPPP1P/RNBQKBNR",
   whiteReply "rnbqkbnr/pppppppp/8/8/8/7P/PPPPPPP1/RNBQKBNR",
   whiteReply "rnbqkbnr/pppppppp/8/8/7P/8/PPPPPPP1/RNBQKBNR",
   whiteReply "rnbqkbnr/pppppppp/8/8/8/N7/PPPPPPPP/R1BQKBNR",
   whiteReply "rnbqkbnr/pppppppp/8/8/8/2N5/PPPPPPPP/R1BQKBNR",
   whiteReply "rnbqkbnr/pppppppp/8/8/8/5N2/PPPPPPPP/RNBQKB1R",
   whiteReply "rnbqkbnr/pppppppp/8/8/8/7N/PPPPPPPP/RNBQKB1R"]

/-- The engine snapshot of `new Chess()`: the standard starting position. -/
def startSnap : Snap :=
  Snap.mk "rnbqkbnr/pppppppp/8/8/8/8/PPPPPPPP/RNBQKBNR w KQkq - 0 1"
    SideColor.w startMoves

/-- The engine handle owned by `ChessPosition.initial()`. -/
def startEngine : Engine :=
  ⟨startSnap, []⟩

/-- Source `ChessPosition.initial()`: fresh engine, white to move with the
legal moves from the start, no alteration, no pending side. -/
def ChessPosition.initialPos : Option ChessPosition :=
  mkChessPosition startEngine none (some ⟨SideColor.w, startSnap.moves⟩) none false

/-- The resulting snapshot of the move e2–e4, the tenth entry of
`startMoves`. -/
def snapE4 : Snap :=
  whiteReply "rnbqkbnr/pppppppp/8/8/4P3/8/PPPP1PPP/RNBQKBNR"

/-- Scenario A observation: the starting placement with the e2 pawn (index 52)
removed. -/
def placementLift : PiecesPlacement :=
  PiecesPlacement.starting.withPieceAt 52 none

/-- Scenario B observation: e2 (index 52) empty, e4 (index 36) a white pawn,
all else as at the start. -/
def placementMove : PiecesPlacement :=
  placementLift.withPieceAt 36 (some Piece.WP)

/-- State after `next` sees the e2 pawn lifted from the initial position. -/
def scenario1 : Option ChessPosition :=
  ChessPosition.initialPos.bind (fun p => p.next placementLift)

/-- State after `next` then sees that pawn placed on e4. -/
def scenario2 : Option ChessPosition :=
  scenario1.bind (fun p => p.next placementMove)

/-- A char the `fromFen` scan rejects: neither a digit 1..8 nor a recognized
piece symbol. -/
def badFenChar (c : Char) : Prop :=
  ¬('1' ≤ c ∧ c ≤ '8') ∧ Piece.tryParse c = none

/-- Number of squares the piece-placement chars account for: a digit run
contributes its value, a piece symbol one square — the source's final
`squareIndex`. -/
def squaresTotal (cs : List Char) : Nat :=
  (cs.map (fun c => if '1' ≤ c ∧ c ≤ '8' then digitVal c else 1)).sum

/-- The concrete position `ChessPosition.initial()` evaluates to. -/
def startPos : ChessPosition :=
  ⟨startEngine, PiecesPlacement.starting, none,
   some ⟨SideColor.w, startMoves⟩, none, false⟩

/-- The concrete position after the e2 pawn is reported lifted. -/
def liftedPos : ChessPosition :=
  ⟨startEngine, PiecesPlacement.starting, some (Alteration.lifted Piece.WP 52),
   some ⟨SideColor.w, startMoves⟩, none, false⟩

/-- The concrete position after the move e2–e4 was applied: engine advanced to
`snapE4`, pending side remembering white's pre-move placement. -/
def movedPos : ChessPosition :=
  ⟨⟨snapE4, [startSnap]⟩, placementMove, none,
   some ⟨SideColor.b, snapE4.moves⟩,
   some ⟨SideColor.w, PiecesPlacement.starting, startMoves⟩, false⟩

/-- Scenario D observation: the starting placement with both queens (indices
3 = d8 and 59 = d1) removed. -/
def placementQueensOff : PiecesPlacement :=
  (PiecesPlacement.starting.withPieceAt 3 none).withPieceAt 59 none

theorem natDigits_digit (cnt : Nat) (h1 : 1 ≤ cnt) (h8 : cnt ≤ 8) :
    natDigits cnt = [Char.ofNat (48 + cnt)] ∧
      ('1' ≤ Char.ofNat (48 + cnt) ∧ Char.ofNat (48 + cnt) ≤ '8') ∧
      digitVal (Char.ofNat (48 + cnt)) = cnt := by
  interval_cases cnt <;> exact ⟨by decide, by decide, by decide⟩

theorem parseCells_digit (c : Char) (h : '1' ≤ c ∧ c ≤ '8') (rest : List Char) :
    parseCells (c :: rest) =
      (parseCells rest).map (fun cells => List.replicate (digitVal c) none ++ cells) := by
  simp only [parseCells, if_pos h]

theorem parseCells_natDigits (cnt : Nat) (h1 : 1 ≤ cnt) (h8 : cnt ≤ 8) (rest : List Char) :
    parseCells (natDigits cnt ++ rest) =
      (parseCells rest).map (fun cells => List.replicate cnt none ++ cells) := by
  obtain ⟨hd, hdig, hval⟩ := natDigits_digit cnt h1 h8
  rw [hd, List.singleton_append, parseCells_digit _ hdig, hval]

theorem parseCells_piece (pc : Piece) (rest : List Char) :
    parseCells (pc.symbol :: rest) =
      (parseCells rest).map (fun cells => some pc :: cells) := by
  obtain ⟨s, kd⟩ := pc
  cases s <;> cases kd <;> rfl

theorem parseCells_rankFen (r : List (Option Piece)) :
    ∀ (cnt : Nat) (rest : List Char), cnt + r.length ≤ 8 →
      parseCells (rankFen r cnt ++ rest) =
        (parseCells rest).map
          (fun cells => List.replicate cnt none ++ (r ++ cells)) := by
  induction r with
  | nil =>
    intro cnt rest h
    by_cases h0 : cnt = 0
    · subst h0
      simp [rankFen]
    · have h1 : 1 ≤ cnt := Nat.one_le_iff_ne_zero.mpr h0
      have h8 : cnt ≤ 8 := by simpa using h
      rw [rankFen, if_neg h0, parseCells_natDigits cnt h1 h8]
      simp
  | cons head tail ih =>
    intro cnt rest h
    cases head with
    | none =>
      rw [rankFen, ih (cnt + 1) rest (by simp at h; omega)]
      congr 1
      funext cells
      rw [List.replicate_succ' cnt]
      simp
    | some pc =>
      rw [rankFen]
      by_cases h0 : cnt = 0
      · subst h0
        rw [if_pos rfl]
        simp only [List.nil_append, List.cons_append]
        rw [parseCells_piece pc, ih 0 rest (by simp at h; omega)]
        simp [Option.map_map]
        rfl
      · have h1 : 1 ≤ cnt := Nat.one_le_iff_ne_zero.mpr h0
        have h8 : cnt ≤ 8 := by simp at h; omega
        rw [if_neg h0]
        rw [List.append_assoc, List.cons_append]
        rw [parseCells_natDigits cnt h1 h8, parseCells_piece pc,
          ih 0 rest (by simp at h; omega)]
        simp [Option.map_map]
        rfl

theorem parseCells_ranks (rs : List (List (Option Piece)))
    (h : ∀ r ∈ rs, r.length ≤ 8) :
    parseCells ((rs.map (fun r => rankFen r 0)).flatten) = some rs.flatten := by
  induction rs with
  | nil => rfl
  | cons r rest ih =>
    simp only [List.map_cons, List.flatten_cons]
    rw [parseCells_rankFen r 0 _ (by simpa using h r (List.mem_cons_self r rest))]
    rw [ih (fun x hx => h x (List.mem_cons_of_mem r hx))]
    simp

theorem ranksSplit_spec :
    ∀ (k : Nat) (l : List (Option Piece)), l.length = 8 * k →
      (ranksSplit l).length = k ∧ (ranksSplit l).flatten = l ∧
        ∀ r ∈ ranksSplit l, r.length = 8 := by
  intro k
  induction k with
  | zero =>
    intro l h
    have : l = [] := List.eq_nil_of_length_eq_zero (by simpa using h)
    subst this
    exact ⟨rfl, rfl, by simp [ranksSplit]⟩
  | succ k ih =>
    intro l h
    rcases l with _ | ⟨a0, _ | ⟨a1, _ | ⟨a2, _ | ⟨a3, _ | ⟨a4, _ | ⟨a5, _ | ⟨a6, _ | ⟨a7, rest⟩⟩⟩⟩⟩⟩⟩⟩ <;>
      simp only [List.length_nil, List.length_cons] at h <;> try omega
    have hrest : rest.length = 8 * k := by omega
    obtain ⟨hl, hj, hm⟩ := ih rest hrest
    refine ⟨?_, ?_, ?_⟩
    · simp [ranksSplit, hl]
    · simp [ranksSplit, hj]
    · intro r hr
      rw [ranksSplit] at hr
      rcases List.mem_cons.mp hr with h1 | h2
      · subst h1; rfl
      · exact hm r h2

theorem splitChar_ne_nil (sep : Char) (l : List Char) : splitChar sep l ≠ [] := by
  cases l with
  | nil => simp [splitChar]
  | cons c rest =>
    rw [splitChar]
    rcases splitChar sep rest with _ | ⟨s, ss⟩ <;> by_cases hc : c = sep <;> simp [hc]

theorem splitChar_no_sep (sep : Char) (l : List Char) (h : sep ∉ l) :
    splitChar sep l = [l] := by
  induction l with
  | nil => rfl
  | cons c rest ih =>
    have hc : c ≠ sep := by
      intro he
      subst he
      exact h (List.mem_cons_self c rest)
    rw [splitChar, ih (fun hm => h (List.mem_cons_of_mem c hm))]
    simp [hc]

theorem splitChar_append (sep : Char) (r t : List Char) (h : sep ∉ r) :
    splitChar sep (r ++ sep :: t) = r :: splitChar sep t := by
  induction r with
  | nil =>
    rw [List.nil_append, splitChar]
    rcases hs : splitChar sep t with _ | ⟨s, ss⟩
    · exact absurd hs (splitChar_ne_nil sep t)
    · simp
  | cons c rest ih =>
    have hc : c ≠ sep := by
      intro he
      subst he
      exact h (List.mem_cons_self c rest)
    simp only [List.cons_append]
    rw [splitChar, ih (fun hm => h (List.mem_cons_of_mem c hm))]
    simp [hc]

theorem splitChar_intercalate (sep : Char) (rs : List (List Char))
    (hne : rs ≠ []) (h : ∀ r ∈ rs, sep ∉ r) :
    splitChar sep (intercalateChar sep rs) = rs := by
  induction rs with
  | nil => exact absurd rfl hne
  | cons r rest ih =>
    cases rest with
    | nil =>
      rw [intercalateChar, splitChar_no_sep sep r (h r (List.mem_cons_self r []))]
    | cons r2 rest2 =>
      show splitChar sep (r ++ sep :: intercalateChar sep (r2 :: rest2)) = _
      rw [splitChar_append sep r _ (h r (List.mem_cons_self r _))]
      rw [ih (by simp) (fun x hx => h x (List.mem_cons_of_mem r hx))]

theorem digit_char_good (c : Char) (h1 : '1' ≤ c) (h8 : c ≤ '8') :
    c ≠ '/' ∧ isWSChar c = false := by
  constructor
  · intro he
    subst he
    exact absurd h1 (by decide)
  · unfold isWSChar
    have hs : c ≠ ' ' := by intro he; subst he; exact absurd h1 (by decide)
    have ht : c ≠ '\t' := by intro he; subst he; exact absurd h1 (by decide)
    have hn : c ≠ '\n' := by intro he; subst he; exact absurd h1 (by decide)
    have hr : c ≠ '\r' := by intro he; subst he; exact absurd h1 (by decide)
    simp [hs, ht, hn, hr]

theorem symbol_good (pc : Piece) :
    pc.symbol ≠ '/' ∧ isWSChar pc.symbol = false := by
  obtain ⟨s, kd⟩ := pc
  cases s <;> cases kd <;> exact ⟨by decide, by decide⟩

theorem rankFen_chars (r : List (Option Piece)) :
    ∀ (cnt : Nat), cnt + r.length ≤ 8 →
      ∀ c ∈ rankFen r cnt, c ≠ '/' ∧ isWSChar c = false := by
  induction r with
  | nil =>
    intro cnt h c hc
    rw [rankFen] at hc
    by_cases h0 : cnt = 0
    · subst h0; simp at hc
    · rw [if_neg h0] at hc
      obtain ⟨hd, hdig, _⟩ :=
        natDigits_digit cnt (Nat.one_le_iff_ne_zero.mpr h0) (by simpa using h)
      rw [hd] at hc
      simp at hc
      subst hc
      exact digit_char_good _ hdig.1 hdig.2
  | cons head tail ih =>
    intro cnt h c hc
    cases head with
    | none =>
      rw [rankFen] at hc
      exact ih (cnt + 1) (by simp at h; omega) c hc
    | some pc =>
      rw [rankFen] at hc
      rcases List.mem_append.mp hc with hm | hm
      · by_cases h0 : cnt = 0
        · subst h0; simp at hm
        · rw [if_neg h0] at hm
          obtain ⟨hd, hdig, _⟩ :=
            natDigits_digit cnt (Nat.one_le_iff_ne_zero.mpr h0) (by simp at h; omega)
          rw [hd] at hm
          simp at hm
          subst hm
          exact digit_char_good _ hdig.1 hdig.2
      · rcases List.mem_cons.mp hm with h1 | h2
        · subst h1; exact symbol_good pc
        · exact ih 0 (by simp at h; omega) c h2

theorem mem_intercalateChar (sep : Char) (rs : List (List Char)) (c : Char)
    (hc : c ∈ intercalateChar sep rs) : c = sep ∨ ∃ r ∈ rs, c ∈ r := by
  induction rs with
  | nil => simp [intercalateChar] at hc
  | cons r rest ih =>
    cases rest with
    | nil =>
      rw [intercalateChar] at hc
      exact Or.inr ⟨r, List.mem_cons_self r [], hc⟩
    | cons r2 rest2 =>
      rw [show intercalateChar sep (r :: r2 :: rest2) =
        r ++ sep :: intercalateChar sep (r2 :: rest2) from rfl] at hc
      rcases List.mem_append.mp hc with hm | hm
      · exact Or.inr ⟨r, List.mem_cons_self r _, hm⟩
      · rcases List.mem_cons.mp hm with h1 | h2
        · exact Or.inl h1
        · rcases ih h2 with h3 | ⟨x, hx, hcx⟩
          · exact Or.inl h3
          · exact Or.inr ⟨x, List.mem_cons_of_mem r hx, hcx⟩

theorem dropWhile_all_false {α : Type} (p : α → Bool) (l : List α)
    (h : ∀ c ∈ l, p c = false) : l.dropWhile p = l := by
  cases l with
  | nil => rfl
  | cons c rest =>
    rw [List.dropWhile_cons, h c (List.mem_cons_self c rest)]
    simp

theorem takeWhile_all_true {α : Type} (p : α → Bool) (l : List α)
    (h : ∀ c ∈ l, p c = true) : l.takeWhile p = l := by
  induction l with
  | nil => rfl
  | cons c rest ih =>
    rw [List.takeWhile_cons, h c (List.mem_cons_self c rest)]
    simp only [ite_true]
    rw [ih (fun x hx => h x (List.mem_cons_of_mem c hx))]

theorem trimChars_all_nonws (l : List Char) (h : ∀ c ∈ l, isWSChar c = false) :
    trimChars l = l := by
  unfold trimChars
  rw [dropWhile_all_false _ _ h]
  rw [dropWhile_all_false _ _ (fun c hc => h c (List.mem_reverse.mp hc))]
  exact List.reverse_reverse l

theorem toFenChars_nonws (p : PiecesPlacement) (h64 : p.pieces.length = 64) :
    ∀ c ∈ p.toFenChars, isWSChar c = false := by
  intro c hc
  unfold PiecesPlacement.toFenChars at hc
  have htake : p.pieces.take 64 = p.pieces := List.take_of_length_le (by omega)
  rw [htake] at hc
  obtain ⟨_, _, hm⟩ := ranksSplit_spec 8 p.pieces (by omega)
  rcases mem_intercalateChar '/' _ c hc with h1 | ⟨r, hr, hcr⟩
  · subst h1; decide
  · obtain ⟨r0, hr0, rfl⟩ := List.mem_map.mp hr
    exact (rankFen_chars r0 0 (by simpa using Nat.le_of_eq (hm r0 hr0)) c hcr).2

theorem fenFieldChars_of_nonws (l : List Char) (h : ∀ c ∈ l, isWSChar c = false) :
    fenFieldChars l = l := by
  unfold fenFieldChars
  rw [trimChars_all_nonws l h]
  exact takeWhile_all_true _ l (fun c hc => by rw [h c hc]; rfl)

theorem toFen_roundtrip (p : PiecesPlacement) (h64 : p.pieces.length = 64) :
    PiecesPlacement.fromFen p.toFen = some p := by
  unfold PiecesPlacement.fromFen
  have hdata : (PiecesPlacement.toFen p).data = p.toFenChars := rfl
  rw [hdata, fenFieldChars_of_nonws _ (toFenChars_nonws p h64)]
  have htake : p.pieces.take 64 = p.pieces := List.take_of_length_le (by omega)
  obtain ⟨hlen, hjoin, hmem⟩ := ranksSplit_spec 8 p.pieces (by omega)
  have hsplit : splitChar '/' p.toFenChars =
      (ranksSplit p.pieces).map (fun r => rankFen r 0) := by
    unfold PiecesPlacement.toFenChars
    rw [htake]
    refine splitChar_intercalate '/' _ ?_ ?_
    · intro hnil
      have := congrArg List.length hnil
      simp [hlen] at this
    · intro r hr
      obtain ⟨r0, hr0, rfl⟩ := List.mem_map.mp hr
      intro hmemc
      exact ((rankFen_chars r0 0
        (by simpa using Nat.le_of_eq (hmem r0 hr0)) '/' hmemc).1) rfl
  rw [hsplit]
  rw [if_pos (by simp [hlen])]
  have hflat : (List.map (fun r => rankFen r 0) (ranksSplit p.pieces)).flatten =
      ((ranksSplit p.pieces).map (fun r => rankFen r 0)).flatten := rfl
  rw [hflat, parseCells_ranks _ (fun r hr => Nat.le_of_eq (hmem r hr)), hjoin]
  simp only [if_pos h64]

theorem fromFen_length (s : String) (p : PiecesPlacement)
    (h : PiecesPlacement.fromFen s = some p) : p.pieces.length = 64 := by
  unfold PiecesPlacement.fromFen at h
  split at h
  · split at h
    · exact absurd h (by simp)
    · split at h
      · obtain rfl := Option.some_injective _ h
        assumption
      · exact absurd h (by simp)
  · exact absurd h (by simp)

theorem diffStep_self (p : PiecesPlacement) (i : Nat) : diffStep p p i = none := by
  simp [diffStep]

theorem diffLoop_take (a b : PiecesPlacement) :
    ∀ (fuel i limit : Nat),
      diffLoop a b i limit fuel =
        ((List.range' i fuel).filterMap (diffStep a b)).take limit := by
  intro fuel
  induction fuel with
  | zero => intro i limit; simp [diffLoop]
  | succ fuel ih =>
    intro i limit
    rw [diffLoop]
    by_cases hl : limit = 0
    · subst hl; simp
    · rw [if_neg hl]
      rw [List.range'_succ]
      cases hstep : diffStep a b i with
      | none =>
        rw [ih (i + 1) limit]
        simp [List.filterMap_cons, hstep]
      | some c =>
        rw [ih (i + 1) (limit - 1)]
        obtain ⟨k, rfl⟩ := Nat.exists_eq_succ_of_ne_zero hl
        simp [List.filterMap_cons, hstep]

theorem diff_eq_take (a b : PiecesPlacement) (limit : Nat) :
    a.diff b limit = (diffSpec a b).take limit := by
  unfold PiecesPlacement.diff diffSpec
  rw [diffLoop_take a b 64 0 limit, List.range_eq_range']

theorem diff_self (p : PiecesPlacement) (limit : Nat) : p.diff p limit = [] := by
  rw [diff_eq_take]
  unfold diffSpec
  rw [List.filterMap_eq_nil_iff.mpr (fun i _ => diffStep_self p i)]
  simp

theorem equals_iff_diff_nil (a b : PiecesPlacement) :
    a.equals b = true ↔ a.diff b 1 = [] := by
  unfold PiecesPlacement.equals
  rw [beq_iff_eq, List.length_eq_zero]

theorem parseCells_none_iff (cs : List Char) :
    parseCells cs = none ↔ ∃ c ∈ cs, badFenChar c := by
  induction cs with
  | nil => simp [parseCells, badFenChar]
  | cons c rest ih =>
    rw [parseCells]
    by_cases hd : '1' ≤ c ∧ c ≤ '8'
    · rw [if_pos hd]
      cases hr : parseCells rest with
      | none =>
        obtain ⟨x, hx, hb⟩ := ih.mp hr
        simp only [Option.map_none', true_iff]
        exact ⟨x, List.mem_cons_of_mem c hx, hb⟩
      | some tl =>
        simp only [Option.map_some']
        constructor
        · intro hcontra
          exact absurd hcontra (by simp)
        · intro ⟨x, hx, hb⟩
          rcases List.mem_cons.mp hx with h1 | h2
          · subst h1
            exact absurd hd hb.1
          · rw [ih.mpr ⟨x, h2, hb⟩] at hr
            exact absurd hr (by simp)
    · rw [if_neg hd]
      cases hp : Piece.tryParse c with
      | none =>
        simp only [true_iff]
        exact ⟨c, List.mem_cons_self c rest, hd, hp⟩
      | some pc =>
        cases hr : parseCells rest with
        | none =>
          obtain ⟨x, hx, hb⟩ := ih.mp hr
          simp only [Option.map_none', true_iff]
          exact ⟨x, List.mem_cons_of_mem c hx, hb⟩
        | some tl =>
          simp only [Option.map_some']
          constructor
          · intro hcontra
            exact absurd hcontra (by simp)
          · intro ⟨x, hx, hb⟩
            rcases List.mem_cons.mp hx with h1 | h2
            · subst h1
              have hb2 := hb.2
              rw [hp] at hb2
              exact absurd hb2 (by simp)
            · rw [ih.mpr ⟨x, h2, hb⟩] at hr
              exact absurd hr (by simp)

theorem parseCells_length (cs : List Char) :
    ∀ cells, parseCells cs = some cells → cells.length = squaresTotal cs := by
  induction cs with
  | nil =>
    intro cells h
    obtain rfl := Option.some_injective _ h.symm
    rfl
  | cons c rest ih =>
    intro cells h
    rw [parseCells] at h
    by_cases hd : '1' ≤ c ∧ c ≤ '8'
    · rw [if_pos hd] at h
      cases hr : parseCells rest with
      | none => rw [hr] at h; exact absurd h (by simp)
      | some tailCells =>
        rw [hr] at h
        obtain rfl := Option.some_injective _ h.symm
        rw [List.length_append, List.length_replicate, ih tailCells hr]
        simp [squaresTotal, if_pos hd]
    · rw [if_neg hd] at h
      cases hp : Piece.tryParse c with
      | none => rw [hp] at h; exact absurd h (by simp)
      | some pc =>
        rw [hp] at h
        simp only [] at h
        cases hr : parseCells rest with
        | none => rw [hr] at h; exact absurd h (by simp)
        | some tailCells =>
          rw [hr] at h
          obtain rfl := Option.some_injective _ h.symm
          rw [List.length_cons, ih tailCells hr]
          simp [squaresTotal, if_neg hd]
          omega

theorem setJS_length_of_lt (l : List (Option Piece)) (i : Nat) (v : Option Piece)
    (h : i < l.length) : (setJS l i v).length = l.length := by
  unfold setJS
  rw [if_pos h]
  exact List.length_set l i v

theorem fillFold_length (r : Nat) (cells : List (Option Piece)) :
    ∀ (idxs : List Nat) (l : List (Option Piece)), l.length = 64 →
      (∀ i ∈ idxs, r * 8 + i < 64) →
      (idxs.foldl (fun acc i => setJS acc (r * 8 + i) (cells.getD i none)) l).length = 64 := by
  intro idxs
  induction idxs with
  | nil => intro l hl _; exact hl
  | cons i rest ih =>
    intro l hl hb
    rw [List.foldl_cons]
    refine ih _ ?_ (fun j hj => hb j (List.mem_cons_of_mem i hj))
    rw [setJS_length_of_lt l _ _ (by rw [hl]; exact hb i (List.mem_cons_self i rest))]
    exact hl

theorem next_eq_nextMulti (p : ChessPosition) (obs : PiecesPlacement)
    (h : 2 ≤ (p.placement.diff obs 64).length) :
    p.next obs = p.nextMulti obs (p.placement.diff obs 64) := by
  unfold ChessPosition.next
  rcases hd : p.placement.diff obs 64 with _ | ⟨c1, _ | ⟨c2, rest⟩⟩
  · rw [hd] at h; simp at h
  · rw [hd] at h; simp at h
  · rfl

/-- C6: for every placement producible by `fromFen`, serializing with `toFen`
and re-parsing yields a placement equal to the original: `toFen` inverts
`fromFen` and the round-trip is exact. -/
theorem fromFen_toFen_roundtrip (s : String) (p : PiecesPlacement)
    (h : PiecesPlacement.fromFen s = some p) :
    ∃ q, PiecesPlacement.fromFen p.toFen = some q ∧ q.equals p = true := by
  refine ⟨p, toFen_roundtrip p (fromFen_length s p h), ?_⟩
  simp [PiecesPlacement.equals, diff_self p 1]

theorem fromFen_toFen_roundtrip_witness :
    PiecesPlacement.fromFen "8/8/8/8/8/8/8/8" = some PiecesPlacement.empty ∧
    (∃ q, PiecesPlacement.fromFen PiecesPlacement.empty.toFen = some q ∧
      q.equals PiecesPlacement.empty = true) :=
  ⟨by decide,
   fromFen_toFen_roundtrip "8/8/8/8/8/8/8/8" PiecesPlacement.empty (by decide)⟩

/-- C7: `diff` scans indices 0..63 in increasing order collecting one
`TargetChange` per differing index, stopping once `limit` changes are found;
hence `diff p p` is empty and `equals a b` holds iff `diff a b 1` is empty. -/
theorem diff_scans_in_order :
    (∀ (a b : PiecesPlacement) (limit : Nat),
      a.diff b limit = (diffSpec a b).take limit) ∧
    (∀ p : PiecesPlacement, p.diff p 64 = []) ∧
    (∀ a b : PiecesPlacement, a.equals b = true ↔ a.diff b 1 = []) :=
  ⟨diff_eq_take, fun p => diff_self p 64, equals_iff_diff_nil⟩

/-- C8: `fromFen` fails exactly when the piece-placement field does not have
8 ranks, contains an unrecognized character, or accounts for a number of
squares other than 64; on every other input it succeeds. -/
theorem fromFen_failure_iff (s : String) :
    PiecesPlacement.fromFen s = none ↔
      ((splitChar '/' (fenFieldChars s.data)).length ≠ 8 ∨
        (∃ c ∈ (splitChar '/' (fenFieldChars s.data)).flatten, badFenChar c) ∨
        squaresTotal ((splitChar '/' (fenFieldChars s.data)).flatten) ≠ 64) := by
  unfold PiecesPlacement.fromFen
  by_cases h8 : (splitChar '/' (fenFieldChars s.data)).length = 8
  · rw [if_pos h8]
    cases hp : parseCells (splitChar '/' (fenFieldChars s.data)).flatten with
    | none =>
      constructor
      · intro _
        exact Or.inr (Or.inl ((parseCells_none_iff _).mp hp))
      · intro _
        trivial
    | some cells =>
      by_cases h64 : cells.length = 64
      · simp only [if_pos h64]
        constructor
        · intro hc
          exact absurd hc (by simp)
        · intro hor
          rcases hor with h | h | h
          · exact absurd h8 h
          · have hn := (parseCells_none_iff _).mpr h
            rw [hp] at hn
            exact absurd hn (by simp)
          · have hlen := parseCells_length _ cells hp
            omega
      · simp only [if_neg h64]
        constructor
        · intro _
          refine Or.inr (Or.inr ?_)
          rw [← parseCells_length _ cells hp]
          exact h64
        · intro _
          trivial
  · rw [if_neg h8]
    constructor
    · intro _
      exact Or.inl h8
    · intro _
      trivial

/-- C9 counterexample: `withPieceAtIndex` applied at index 64 extends the JS
array, so the result has 65 slots, refuting "exactly 64 slots for any
arguments". -/
theorem placement_not_always_64 :
    (PiecesPlacement.empty.withPieceAtIndex 64 (some Piece.WP)).pieces.length ≠ 64 ∧
    (PiecesPlacement.empty.withPieceAtIndex 64 (some Piece.WP)).pieces.length = 65 :=
  ⟨by decide, by decide⟩

/-- C9 amended: every placement produced by `empty`, `starting`, `fromFen`, or
by a mutator applied at an in-range index (index below 64, rank index below 8,
as every valid `Square` yields) has exactly 64 slots; mutators are pure
copy-on-write functions, so the original value is unchanged. -/
theorem placement_64_in_range :
    PiecesPlacement.empty.pieces.length = 64 ∧
    PiecesPlacement.starting.pieces.length = 64 ∧
    (∀ (s : String) (p : PiecesPlacement),
      PiecesPlacement.fromFen s = some p → p.pieces.length = 64) ∧
    (∀ (p : PiecesPlacement) (i : Nat) (v : Option Piece),
      p.pieces.length = 64 → i < 64 →
        (p.withPieceAtIndex i v).pieces.length = 64) ∧
    (∀ (p : PiecesPlacement) (sq : Square) (v : Option Piece),
      p.pieces.length = 64 → sq < 64 →
        (p.withPieceAt sq v).pieces.length = 64) ∧
    (∀ (p q : PiecesPlacement) (r : Nat) (cells : List (Option Piece)),
      p.pieces.length = 64 → r < 8 →
        p.fillRank r cells = some q → q.pieces.length = 64) := by
  have hset : ∀ (p : PiecesPlacement) (i : Nat) (v : Option Piece),
      p.pieces.length = 64 → i < 64 →
        (p.withPieceAtIndex i v).pieces.length = 64 := by
    intro p i v hl hi
    show (setJS p.pieces i v).length = 64
    rw [setJS_length_of_lt p.pieces i v (by omega), hl]
  refine ⟨rfl, rfl, fromFen_length, hset, hset, ?_⟩
  intro p q r cells hl hr hfill
  unfold PiecesPlacement.fillRank at hfill
  split at hfill
  · have hq : q.pieces = (List.range 8).foldl
        (fun acc i => setJS acc (r * 8 + i) (cells.getD i none)) p.pieces := by
      have h2 := Option.some_injective _ hfill
      rw [← h2]
    rw [hq]
    exact fillFold_length r cells (List.range 8) p.pieces hl
      (fun i hi => by have := List.mem_range.mp hi; omega)
  · exact absurd hfill (by simp)

theorem placement_64_in_range_witness :
    PiecesPlacement.starting.pieces.length = 64 ∧ 52 < 64 ∧
    (PiecesPlacement.starting.withPieceAtIndex 52 none).pieces.length = 64 :=
  ⟨by decide, by decide,
   placement_64_in_range.2.2.2.1 PiecesPlacement.starting 52 none (by decide) (by decide)⟩

theorem next_eq_nil (p : ChessPosition) (obs : PiecesPlacement)
    (hd : p.placement.diff obs 64 = []) :
    p.next obs =
      (if p.alteration.isSome then p.withAlteration none else some p) := by
  unfold ChessPosition.next
  rw [hd]

theorem next_eq_single (p : ChessPosition) (obs : PiecesPlacement)
    (c : TargetChange) (hd : p.placement.diff obs 64 = [c]) :
    p.next obs = (match p.liftedPiece c with
      | none =>
        p.withAlteration (some (Alteration.errors [⟨c.before, c.square⟩]))
      | some pc => p.withAlteration (some (Alteration.lifted pc c.square))) := by
  unfold ChessPosition.next
  rw [hd]

theorem nextMulti_eq_nextTurn (p : ChessPosition) (obs : PiecesPlacement)
    (d : List TargetChange)
    (hpend : p.pendingSide = none ∨
      ∃ ps, p.pendingSide = some ps ∧ obs.equals ps.returnPlacement = false ∧
        List.find? (movePred obs) ps.legalMoves = none) :
    p.nextMulti obs d = p.nextTurn obs d := by
  unfold ChessPosition.nextMulti
  rcases hpend with hnone | ⟨ps, hps, heq, hfindps⟩
  · simp only [hnone]
  · simp only [hps]
    rw [if_neg (by simp [heq])]
    simp only [hfindps]

/-- C1: with a multi-square diff, no applicable pending-move resolution, and a
legal move of the side to move whose resulting placement (piece-placement
field of its FEN) equals the observed placement, `next` applies the first such
move to the engine and returns a position whose turn side is the engine's
side to move after the move with the legal moves from the new position, and
whose pending side records the mover's color, the placement before the move,
and the move list that was searched. -/
theorem fresh_legal_move_applied (p : ChessPosition) (obs : PiecesPlacement)
    (ts : TurnSide) (m : Snap)
    (hts : p.turnSide = some ts)
    (hdiff : 2 ≤ (p.placement.diff obs 64).length)
    (hpend : p.pendingSide = none ∨
      ∃ ps, p.pendingSide = some ps ∧ obs.equals ps.returnPlacement = false ∧
        List.find? (movePred obs) ps.legalMoves = none)
    (hfind : List.find? (movePred obs) ts.legalMoves = some m)
    (hlen : obs.pieces.length = 64) :
    p.next obs = some ⟨p.engine.move m, obs, none, some ⟨m.turn, m.moves⟩,
      some ⟨ts.color, p.placement, ts.legalMoves⟩, false⟩ := by
  rw [next_eq_nextMulti p obs hdiff]
  rw [nextMulti_eq_nextTurn p obs _ hpend]
  unfold ChessPosition.nextTurn
  simp only [hts, hfind]
  unfold mkChessPosition
  have hfen : fenField0 m.fen = obs.toFen := by
    have hp := List.find?_some hfind
    simpa [movePred] using hp
  have hcur : (p.engine.move m).current = m := rfl
  rw [hcur, hfen, toFen_roundtrip obs hlen]
  rfl

theorem fresh_legal_move_applied_witness :
    liftedPos.next placementMove =
      some ⟨liftedPos.engine.move snapE4, placementMove, none,
        some ⟨snapE4.turn, snapE4.moves⟩,
        some ⟨SideColor.w, liftedPos.placement, startMoves⟩, false⟩ :=
  fresh_legal_move_applied liftedPos placementMove ⟨SideColor.w, startMoves⟩ snapE4
    rfl (by decide) (Or.inl rfl) rfl (by decide)

/-- C2: with a multi-square diff, a pending side set, and the observed
placement equal to the pending return placement, `next` undoes the last move
on the engine and returns a position whose turn side is the pending color with
the engine's legal moves after the undo, whose pending side is cleared, and
whose status is `Ready`. -/
theorem pending_cancellation_undoes (p : ChessPosition) (obs : PiecesPlacement)
    (ps : PendingSide) (pl : PiecesPlacement)
    (hps : p.pendingSide = some ps)
    (hdiff : 2 ≤ (p.placement.diff obs 64).length)
    (heq : obs.equals ps.returnPlacement = true)
    (hwf : PiecesPlacement.fromFen (fenField0 p.engine.undo.current.fen) = some pl) :
    p.next obs = some ⟨p.engine.undo, pl, none,
      some ⟨ps.color, p.engine.undo.current.moves⟩, none, true⟩ ∧
    ChessPosition.status ⟨p.engine.undo, pl, none,
      some ⟨ps.color, p.engine.undo.current.moves⟩, none, true⟩ =
      PositionStatus.Ready := by
  constructor
  · rw [next_eq_nextMulti p obs hdiff]
    unfold ChessPosition.nextMulti
    simp only [hps]
    rw [if_pos heq]
    unfold mkChessPosition
    rw [hwf]
    rfl
  · rfl

theorem pending_cancellation_undoes_witness :
    movedPos.next PiecesPlacement.starting =
      some ⟨movedPos.engine.undo, PiecesPlacement.starting, none,
        some ⟨SideColor.w, movedPos.engine.undo.current.moves⟩, none, true⟩ ∧
    ChessPosition.status ⟨movedPos.engine.undo, PiecesPlacement.starting, none,
      some ⟨SideColor.w, movedPos.engine.undo.current.moves⟩, none, true⟩ =
      PositionStatus.Ready :=
  pending_cancellation_undoes movedPos PiecesPlacement.starting
    ⟨SideColor.w, PiecesPlacement.starting, startMoves⟩ PiecesPlacement.starting
    rfl (by decide) (by decide) (by decide)

/-- C4: a single-square diff entry that removes a piece (nothing replacing
it) of the side to move yields status `Lifted` with that piece and square;
any other single-square change yields `Errors` with that one square carrying
its pre-change occupant. -/
theorem single_change_classified (p : ChessPosition) (obs : PiecesPlacement)
    (c : TargetChange) (pl : PiecesPlacement)
    (hd : p.placement.diff obs 64 = [c])
    (hwf : PiecesPlacement.fromFen (fenField0 p.engine.current.fen) = some pl) :
    (∀ pc, c.before = some pc → c.after = none →
      pc.color = p.engine.current.turn →
        p.next obs = some ⟨p.engine, pl, some (Alteration.lifted pc c.square),
          p.turnSide, p.pendingSide, false⟩ ∧
        ChessPosition.status ⟨p.engine, pl, some (Alteration.lifted pc c.square),
          p.turnSide, p.pendingSide, false⟩ = PositionStatus.Lifted pc c.square) ∧
    ((c.before = none ∨ c.after ≠ none ∨
        (∀ pc, c.before = some pc → pc.color ≠ p.engine.current.turn)) →
      p.next obs = some ⟨p.engine, pl,
        some (Alteration.errors [⟨c.before, c.square⟩]),
        p.turnSide, p.pendingSide, false⟩ ∧
      ChessPosition.status ⟨p.engine, pl,
        some (Alteration.errors [⟨c.before, c.square⟩]),
        p.turnSide, p.pendingSide, false⟩ =
        PositionStatus.Errors [⟨c.before, c.square⟩]) := by
  have hbranch : p.next obs = (match p.liftedPiece c with
      | none => p.withAlteration (some (Alteration.errors [⟨c.before, c.square⟩]))
      | some pc => p.withAlteration (some (Alteration.lifted pc c.square))) := by
    unfold ChessPosition.next
    rw [hd]
  constructor
  · intro pc hb ha hc
    have hlift : p.liftedPiece c = some pc := by
      unfold ChessPosition.liftedPiece
      simp only [hb, ha]
      rw [if_pos hc]
    rw [hbranch, hlift]
    constructor
    · show ChessPosition.withAlteration p _ = _
      unfold ChessPosition.withAlteration mkChessPosition
      rw [hwf]
      rfl
    · rfl
  · intro hor
    have hlift : p.liftedPiece c = none := by
      unfold ChessPosition.liftedPiece
      rcases hor with hb | ha | hcol
      · simp only [hb]
      · cases hbefore : c.before with
        | none => rfl
        | some pc =>
          cases hafter : c.after with
          | none => exact absurd hafter ha
          | some pc2 => rfl
      · cases hbefore : c.before with
        | none => rfl
        | some pc =>
          cases hafter : c.after with
          | some pc2 => rfl
          | none =>
            simp only []
            rw [if_neg (hcol pc hbefore)]
    rw [hbranch, hlift]
    constructor
    · show ChessPosition.withAlteration p _ = _
      unfold ChessPosition.withAlteration mkChessPosition
      rw [hwf]
      rfl
    · rfl

theorem single_change_classified_witness :
    startPos.next placementLift =
      some ⟨startPos.engine, PiecesPlacement.starting,
        some (Alteration.lifted Piece.WP 52),
        startPos.turnSide, startPos.pendingSide, false⟩ ∧
    ChessPosition.status ⟨startPos.engine, PiecesPlacement.starting,
      some (Alteration.lifted Piece.WP 52),
      startPos.turnSide, startPos.pendingSide, false⟩ =
      PositionStatus.Lifted Piece.WP 52 :=
  (single_change_classified startPos placementLift ⟨52, some Piece.WP, none⟩
    PiecesPlacement.starting (by decide) (by decide)).1 Piece.WP rfl rfl rfl

/-- C10: whenever `next` returns a position whose status is `Lifted` or
`Errors`, that position keeps the pre-call placement, turn side and pending
side, and the rules engine is not mutated: no move is applied or undone. -/
theorem lifted_errors_frame (p : ChessPosition) (obs : PiecesPlacement)
    (p' : ChessPosition)
    (hwf : PiecesPlacement.fromFen (fenField0 p.engine.current.fen) = some p.placement)
    (hnext : p.next obs = some p')
    (hstat : (∃ pc sq, p'.status = PositionStatus.Lifted pc sq) ∨
      ∃ tgts, p'.status = PositionStatus.Errors tgts) :
    p'.placement = p.placement ∧ p'.turnSide = p.turnSide ∧
      p'.pendingSide = p.pendingSide ∧ p'.engine = p.engine := by
  have halt : ∃ a, p'.alteration = some a := by
    cases ha : p'.alteration with
    | some a => exact ⟨a, rfl⟩
    | none =>
      exfalso
      have hs : p'.status =
          (if p'.pendingSide.isSome then PositionStatus.Moved
           else PositionStatus.Ready) := by
        unfold ChessPosition.status
        rw [ha]
      rcases hstat with ⟨pc, sq, h⟩ | ⟨tg, h⟩ <;> rw [hs] at h <;>
        by_cases hp : p'.pendingSide.isSome <;> simp [hp] at h
  have hwa : ∀ a, p.withAlteration a =
      some ⟨p.engine, p.placement, a, p.turnSide, p.pendingSide, false⟩ := by
    intro a
    unfold ChessPosition.withAlteration mkChessPosition
    rw [hwf]
    rfl
  have hframe : ∀ a, p.withAlteration a = some p' →
      p'.placement = p.placement ∧ p'.turnSide = p.turnSide ∧
        p'.pendingSide = p.pendingSide ∧ p'.engine = p.engine := by
    intro a hw
    rw [hwa a] at hw
    have h2 := Option.some_injective _ hw
    rw [← h2]
    exact ⟨rfl, rfl, rfl, rfl⟩
  have hcontra : ∀ (e : Engine) (tsn : Option TurnSide) (psn : Option PendingSide)
      (rn : Bool), mkChessPosition e none tsn psn rn = some p' → False := by
    intro e tsn psn rn hmk
    unfold mkChessPosition at hmk
    cases hparse : PiecesPlacement.fromFen (fenField0 e.current.fen) with
    | none =>
      rw [hparse] at hmk
      exact absurd hmk (by simp)
    | some pl =>
      rw [hparse] at hmk
      simp only [Option.map_some'] at hmk
      have h2 := Option.some_injective _ hmk
      obtain ⟨a, ha⟩ := halt
      rw [← h2] at ha
      exact absurd ha (by simp)
  have hturnCase : ∀ d, p.nextTurn obs d = some p' →
      p'.placement = p.placement ∧ p'.turnSide = p.turnSide ∧
        p'.pendingSide = p.pendingSide ∧ p'.engine = p.engine := by
    intro d hnt
    unfold ChessPosition.nextTurn at hnt
    cases hts : p.turnSide with
    | none =>
      simp only [hts] at hnt
      obtain ⟨h1, h2, h3, h4⟩ := hframe _ hnt
      exact ⟨h1, by rw [h2, hts], h3, h4⟩
    | some ts =>
      simp only [hts] at hnt
      cases hfind : List.find? (movePred obs) ts.legalMoves with
      | some m =>
        simp only [hfind] at hnt
        exact absurd hnt (by intro h; exact hcontra _ _ _ _ h)
      | none =>
        simp only [hfind] at hnt
        obtain ⟨h1, h2, h3, h4⟩ := hframe _ hnt
        exact ⟨h1, by rw [h2, hts], h3, h4⟩
  rcases hd : p.placement.diff obs 64 with _ | ⟨c1, _ | ⟨c2, rest⟩⟩
  · rw [next_eq_nil p obs hd] at hnext
    by_cases hA : p.alteration.isSome
    · rw [if_pos hA, hwa none] at hnext
      have h2 := Option.some_injective _ hnext
      obtain ⟨a, ha⟩ := halt
      rw [← h2] at ha
      exact absurd ha (by simp)
    · rw [if_neg hA] at hnext
      have h2 := Option.some_injective _ hnext
      obtain ⟨a, ha⟩ := halt
      rw [← h2] at ha
      rw [ha] at hA
      simp at hA
  · rw [next_eq_single p obs c1 hd] at hnext
    cases hl : p.liftedPiece c1 with
    | none =>
      simp only [hl] at hnext
      exact hframe _ hnext
    | some pc =>
      simp only [hl] at hnext
      exact hframe _ hnext
  · rw [next_eq_nextMulti p obs (by rw [hd]; simp)] at hnext
    unfold ChessPosition.nextMulti at hnext
    cases hps : p.pendingSide with
    | none =>
      simp only [hps] at hnext
      obtain ⟨h1, h2, h3, h4⟩ := hturnCase _ hnext
      exact ⟨h1, h2, by rw [h3, hps], h4⟩
    | some ps =>
      simp only [hps] at hnext
      by_cases heq : obs.equals ps.returnPlacement = true
      · rw [if_pos heq] at hnext
        exact absurd hnext (by intro h; exact hcontra _ _ _ _ h)
      · rw [if_neg heq] at hnext
        cases hfind : List.find? (movePred obs) ps.legalMoves with
        | some m =>
          simp only [hfind] at hnext
          exact absurd hnext (by intro h; exact hcontra _ _ _ _ h)
        | none =>
          simp only [hfind] at hnext
          obtain ⟨h1, h2, h3, h4⟩ := hturnCase _ hnext
          exact ⟨h1, h2, by rw [h3, hps], h4⟩

theorem lifted_errors_frame_witness :
    liftedPos.placement = startPos.placement ∧
    liftedPos.turnSide = startPos.turnSide ∧
    liftedPos.pendingSide = startPos.pendingSide ∧
    liftedPos.engine = startPos.engine :=
  lifted_errors_frame startPos placementLift liftedPos (by decide) rfl
    (Or.inl ⟨Piece.WP, 52, rfl⟩)

/-- C5: under the engine's guarantee that every FEN it hands out parses,
`next` is total — it never throws for any observed placement — and an
observed diff that admits no lift, no legal move and no pending-move
resolution is reported as the `Errors` status carrying one target per
changed square with the pre-change occupant. -/
theorem next_never_throws (p : ChessPosition) (obs : PiecesPlacement)
    (hwf : posWF p = true) :
    (p.next obs).isSome = true ∧
    (noExplanation p obs = true →
      ∃ p', p.next obs = some p' ∧
        p'.alteration =
          some (Alteration.errors (errorTargets (p.placement.diff obs 64))) ∧
        p'.status =
          PositionStatus.Errors (errorTargets (p.placement.diff obs 64))) := by
  unfold posWF at hwf
  rw [Bool.and_eq_true, Bool.and_eq_true, Bool.and_eq_true] at hwf
  obtain ⟨⟨⟨hcur, hhist⟩, htsAll⟩, hpsAll⟩ := hwf
  have hwa : ∀ a, ∃ pl, p.withAlteration a =
      some ⟨p.engine, pl, a, p.turnSide, p.pendingSide, false⟩ := by
    intro a
    unfold ChessPosition.withAlteration mkChessPosition
    obtain ⟨pl, hpl⟩ := Option.isSome_iff_exists.mp hcur
    exact ⟨pl, by rw [hpl]; rfl⟩
  have hmkSome : ∀ (e : Engine) (a : Option Alteration) (tsn : Option TurnSide)
      (psn : Option PendingSide) (rn : Bool), snapWF e.current = true →
        (mkChessPosition e a tsn psn rn).isSome = true := by
    intro e a tsn psn rn hsw
    unfold mkChessPosition
    obtain ⟨pl, hpl⟩ := Option.isSome_iff_exists.mp hsw
    rw [hpl]
    rfl
  have hundo : snapWF p.engine.undo.current = true := by
    cases hh : p.engine.history with
    | nil =>
      have he : p.engine.undo = p.engine := by
        unfold Engine.undo
        rw [hh]
      rw [he]
      exact hcur
    | cons h t =>
      have he : p.engine.undo = ⟨h, t⟩ := by
        unfold Engine.undo
        rw [hh]
      rw [he]
      exact List.all_eq_true.mp hhist h (by rw [hh]; exact List.mem_cons_self h t)
  have hturnCase :
      (∀ d, (p.nextTurn obs d).isSome = true) ∧
      (((match p.turnSide with
         | some ts => (List.find? (movePred obs) ts.legalMoves).isNone
         | none => true) : Bool) = true →
        ∀ d, ∃ p', p.nextTurn obs d = some p' ∧
          p'.alteration = some (Alteration.errors (errorTargets d)) ∧
          p'.status = PositionStatus.Errors (errorTargets d)) := by
    constructor
    · intro d
      unfold ChessPosition.nextTurn
      cases hts2 : p.turnSide with
      | none =>
        simp only [hts2]
        obtain ⟨pl, hp⟩ := hwa _
        rw [hp]
        rfl
      | some ts =>
        simp only [hts2]
        cases hfind : List.find? (movePred obs) ts.legalMoves with
        | some m =>
          simp only [hfind]
          apply hmkSome
          show snapWF m = true
          have hm := List.mem_of_find?_eq_some hfind
          rw [hts2] at htsAll
          replace htsAll : ts.legalMoves.all snapWF = true := htsAll
          exact List.all_eq_true.mp htsAll m hm
        | none =>
          simp only [hfind]
          obtain ⟨pl, hp⟩ := hwa _
          rw [hp]
          rfl
    · intro hcond d
      unfold ChessPosition.nextTurn
      cases hts2 : p.turnSide with
      | none =>
        simp only [hts2]
        obtain ⟨pl, hp⟩ := hwa (some (Alteration.errors (errorTargets d)))
        exact ⟨_, hp, rfl, rfl⟩
      | some ts =>
        rw [hts2] at hcond
        replace hcond : (List.find? (movePred obs) ts.legalMoves).isNone = true :=
          hcond
        have hfind : List.find? (movePred obs) ts.legalMoves = none :=
          Option.isNone_iff_eq_none.mp hcond
        simp only [hts2, hfind]
        obtain ⟨pl, hp⟩ := hwa (some (Alteration.errors (errorTargets d)))
        exact ⟨_, hp, rfl, rfl⟩
  constructor
  · rcases hd : p.placement.diff obs 64 with _ | ⟨c1, _ | ⟨c2, rest⟩⟩
    · rw [next_eq_nil p obs hd]
      by_cases hA : p.alteration.isSome
      · rw [if_pos hA]
        obtain ⟨pl, hp⟩ := hwa none
        rw [hp]
        rfl
      · rw [if_neg hA]
        rfl
    · rw [next_eq_single p obs c1 hd]
      cases hl : p.liftedPiece c1 with
      | none =>
        simp only [hl]
        obtain ⟨pl, hp⟩ := hwa _
        rw [hp]
        rfl
      | some pc =>
        simp only [hl]
        obtain ⟨pl, hp⟩ := hwa _
        rw [hp]
        rfl
    · rw [next_eq_nextMulti p obs (by rw [hd]; simp)]
      unfold ChessPosition.nextMulti
      cases hpsE : p.pendingSide with
      | none =>
        simp only [hpsE]
        exact hturnCase.1 _
      | some ps =>
        simp only [hpsE]
        by_cases heq : obs.equals ps.returnPlacement = true
        · rw [if_pos heq]
          exact hmkSome _ _ _ _ _ hundo
        · rw [if_neg heq]
          cases hfind : List.find? (movePred obs) ps.legalMoves with
          | some m =>
            simp only [hfind]
            apply hmkSome
            show snapWF m = true
            have hm := List.mem_of_find?_eq_some hfind
            rw [hpsE] at hpsAll
            replace hpsAll : ps.legalMoves.all snapWF = true := hpsAll
            exact List.all_eq_true.mp hpsAll m hm
          | none =>
            simp only [hfind]
            exact hturnCase.1 _
  · intro hnoexp
    unfold noExplanation at hnoexp
    rcases hd : p.placement.diff obs 64 with _ | ⟨c1, _ | ⟨c2, rest⟩⟩ <;>
      rw [hd] at hnoexp
    · simp at hnoexp
    · replace hnoexp : (p.liftedPiece c1).isNone = true := hnoexp
      have hl : p.liftedPiece c1 = none := Option.isNone_iff_eq_none.mp hnoexp
      rw [next_eq_single p obs c1 hd]
      simp only [hl]
      obtain ⟨pl, hp⟩ := hwa (some (Alteration.errors [⟨c1.before, c1.square⟩]))
      exact ⟨_, hp, rfl, rfl⟩
    · replace hnoexp :
        (((match p.pendingSide with
           | some ps =>
             !(obs.equals ps.returnPlacement) &&
               (List.find? (movePred obs) ps.legalMoves).isNone
           | none => true) &&
          (match p.turnSide with
           | some ts => (List.find? (movePred obs) ts.legalMoves).isNone
           | none => true) : Bool) = true) := hnoexp
      rw [Bool.and_eq_true] at hnoexp
      obtain ⟨hpend, hturn⟩ := hnoexp
      rw [next_eq_nextMulti p obs (by rw [hd]; simp), hd]
      unfold ChessPosition.nextMulti
      cases hpsE : p.pendingSide with
      | none =>
        simp only [hpsE]
        exact hturnCase.2 hturn _
      | some ps =>
        rw [hpsE] at hpend
        replace hpend : (!(obs.equals ps.returnPlacement) &&
            (List.find? (movePred obs) ps.legalMoves).isNone) = true := hpend
        rw [Bool.and_eq_true] at hpend
        obtain ⟨hneq, hfindN⟩ := hpend
        have hfind : List.find? (movePred obs) ps.legalMoves = none :=
          Option.isNone_iff_eq_none.mp hfindN
        have hneqF : obs.equals ps.returnPlacement = false := by
          revert hneq
          cases obs.equals ps.returnPlacement <;> simp
        simp only [hpsE]
        rw [if_neg (by simp [hneqF])]
        simp only [hfind]
        exact hturnCase.2 hturn _

theorem next_never_throws_witness :
    posWF startPos = true ∧
    noExplanation startPos placementQueensOff = true ∧
    errorTargets (startPos.placement.diff placementQueensOff 64) =
      [⟨some Piece.BQ, 3⟩, ⟨some Piece.WQ, 59⟩] ∧
    (∃ p', startPos.next placementQueensOff = some p' ∧
      p'.alteration = some (Alteration.errors
        (errorTargets (startPos.placement.diff placementQueensOff 64))) ∧
      p'.status = PositionStatus.Errors
        (errorTargets (startPos.placement.diff placementQueensOff 64))) :=
  ⟨by decide, by decide, by decide,
   (next_never_throws startPos placementQueensOff (by decide)).2 (by decide)⟩

/-- C3: from the initial position, `next` on the starting placement minus the
e2 pawn yields `Lifted`; a further `next` with the pawn on e4 yields `Moved`,
the engine's FEN showing the pawn on e4 with black to move, and a pending
side recording white and the starting placement; `Moved` is one of the four
mutually exclusive `PositionStatus` variants, of which exactly one holds. -/
theorem scenario_move_yields_moved :
    scenario1.map ChessPosition.status =
      some (PositionStatus.Lifted Piece.WP 52) ∧
    scenario2.map ChessPosition.status = some PositionStatus.Moved ∧
    scenario2.map (fun p => fenField0 p.engine.current.fen) =
      some "rnbqkbnr/pppppppp/8/8/4P3/8/PPPP1PPP/RNBQKBNR" ∧
    scenario2.map (fun p => p.engine.current.turn) = some SideColor.b ∧
    scenario2.map (fun p => p.pendingSide.map (fun ps => ps.color)) =
      some (some SideColor.w) ∧
    scenario2.map (fun p => p.pendingSide.map (fun ps => ps.returnPlacement)) =
      some (some PiecesPlacement.starting) ∧
    scenario2.map (fun p => p.pendingSide.map (fun ps => ps.legalMoves)) =
      some (some startMoves) ∧
    (∀ s : PositionStatus, s = PositionStatus.Ready ∨
      (∃ pc sq, s = PositionStatus.Lifted pc sq) ∨
      (∃ tgts, s = PositionStatus.Errors tgts) ∨ s = PositionStatus.Moved) ∧
    PositionStatus.Moved ≠ PositionStatus.Ready ∧
    (∀ pc sq, PositionStatus.Moved ≠ PositionStatus.Lifted pc sq) ∧
    (∀ tgts, PositionStatus.Moved ≠ PositionStatus.Errors tgts) := by
  refine ⟨by decide, by decide, by decide, rfl, rfl, by decide, rfl,
    ?_, by decide, ?_, ?_⟩
  · intro s
    cases s with
    | Ready => exact Or.inl rfl
    | Lifted pc sq => exact Or.inr (Or.inl ⟨pc, sq, rfl⟩)
    | Errors tgts => exact Or.inr (Or.inr (Or.inl ⟨tgts, rfl⟩))
    | Moved => exact Or.inr (Or.inr (Or.inr rfl))
  · intro pc sq h
    exact PositionStatus.noConfusion h
  · intro tgts h
    exact PositionStatus.noConfusion h
